import Mathlib

/-!
# firefox-newpage-customizer: the pinned-sites line of `prefs.js`

A shallow embedding of `main.go`: the liveness check `isRunning` and the
`Load` / `Save` methods of `Pinned`, together with the library functions they
call (`strings.*`, `fmt.Sprint`, `fmt.Sprintf`, `unicode/utf8`, `json.Marshal`
and `json.Unmarshal` for the type `Pinned`).

Conventions of the embedding:

* a Go `string` / `[]byte` is the list of its bytes, each byte a natural
  number below 256;
* the file system is the one file `<profile>/prefs.js`, the process table is
  the list of matches of `/proc/*/exe`; a write to the file either succeeds
  or fails with an error, leaving behind whatever the world says it leaves;
* `encoding/json` is that of Go 1.22 and later (`\b` and `\f` are written as
  such by `Marshal`);
* loops whose step width depends on the data carry a fuel argument; the
  lemmas `appendStringLoop_fuel`, `unquoteLoop_fuel`, `foldNameLoop_fuel` and
  `parseValue_fuel` show that the fuel supplied is never used up.
-/

namespace Customizer

/-- A Go string: its bytes, in order. -/
abbrev Bytes := List Nat

/-- The bytes of an ASCII string literal. -/
def ascii (s : String) : Bytes := s.toList.map Char.toNat

/-! ## The `strings` functions used by `main.go` -/

/-- Go `strings.HasPrefix(s, prefix)`. -/
def HasPrefix : Bytes → Bytes → Bool
  | _, [] => true
  | [], _ :: _ => false
  | c :: s, d :: pre => c == d && HasPrefix s pre

/-- Go `strings.Contains(s, substr)`. -/
def Contains : Bytes → Bytes → Bool
  | [], sub => HasPrefix [] sub
  | c :: s, sub => HasPrefix (c :: s) sub || Contains s sub

/-- Go `strings.Split(s, sep)` for a one-byte separator `sep`. -/
def Split (sep : Nat) : Bytes → List Bytes
  | [] => [[]]
  | c :: s =>
    if c = sep then [] :: Split sep s
    else match Split sep s with
      | [] => [[c]]
      | l :: ls => (c :: l) :: ls

/-- Go `strings.Join(elems, sep)`. -/
def Join (sep : Bytes) : List Bytes → Bytes
  | [] => []
  | [l] => l
  | l :: l2 :: ls => l ++ sep ++ Join sep (l2 :: ls)

/-- Go `strings.ReplaceAll(s, old, new)` for a one-byte `old`. -/
def ReplaceAll (s : Bytes) (old : Nat) (new : Bytes) : Bytes :=
  s.flatMap (fun c => if c = old then new else [c])

/-- Go `strings.Trim(s, cutset)` for an ASCII `cutset`: leading and trailing
bytes that occur in `cutset` are removed. -/
def Trim (s : Bytes) (cutset : Bytes) : Bytes :=
  ((s.dropWhile (fun c => cutset.contains c)).reverse.dropWhile
    (fun c => cutset.contains c)).reverse

/-! ## Constants and data model -/

/-- Go `const PINNED_CFG`. -/
def PINNED_CFG : Bytes := ascii "user_pref(\"browser.newtabpage.pinned\", "

/-- The newline byte, the separator of `strings.Split(string(data), "\n")`. -/
def NL : Nat := 10

/-- Go `type Pin struct`: the three string fields. An empty string is the
`omitempty` "not set" value of `Label` and `Icon`. -/
structure Pin where
  URL : Bytes
  Label : Bytes
  Icon : Bytes
deriving DecidableEq, Repr

/-- Go `type Pinned []Pin`; `none` is the nil slice, `some []` the empty one. -/
abbrev Pinned := Option (List Pin)

/-- Go error values that `Load` and `Save` can return. -/
inductive Error where
  /-- an error of `os.ReadFile` -/
  | readFile
  /-- an error of `os.WriteFile` -/
  | writeFile
  /-- the value of `errors.New(msg)` -/
  | errorsNew (msg : String)
  /-- a `*json.SyntaxError` -/
  | jsonSyntax
  /-- a `*json.UnmarshalTypeError` -/
  | jsonType
deriving DecidableEq, Repr

/-! ## `unicode/utf8` -/

/-- Go `utf8.RuneError`. -/
def RuneError : Nat := 0xFFFD

/-- Go `utf8.DecodeRune` / `utf8.DecodeRuneInString`: the first rune of `s` and
its width in bytes; `(RuneError, 1)` for an invalid or truncated encoding and
`(RuneError, 0)` for the empty string. -/
def DecodeRune : Bytes → Nat × Nat
  | [] => (RuneError, 0)
  | s0 :: rest =>
    if s0 < 0x80 then (s0, 1)
    else if s0 < 0xC2 then (RuneError, 1)
    else if s0 < 0xE0 then
      match rest with
      | s1 :: _ =>
        if 0x80 ≤ s1 ∧ s1 ≤ 0xBF then ((s0 % 32) * 64 + s1 % 64, 2) else (RuneError, 1)
      | _ => (RuneError, 1)
    else if s0 < 0xF0 then
      match rest with
      | s1 :: s2 :: _ =>
        if (if s0 = 0xE0 then 0xA0 else 0x80) ≤ s1 ∧ s1 ≤ (if s0 = 0xED then 0x9F else 0xBF)
            ∧ 0x80 ≤ s2 ∧ s2 ≤ 0xBF then
          (((s0 % 16) * 64 + s1 % 64) * 64 + s2 % 64, 3)
        else (RuneError, 1)
      | _ => (RuneError, 1)
    else if s0 < 0xF5 then
      match rest with
      | s1 :: s2 :: s3 :: _ =>
        if (if s0 = 0xF0 then 0x90 else 0x80) ≤ s1 ∧ s1 ≤ (if s0 = 0xF4 then 0x8F else 0xBF)
            ∧ 0x80 ≤ s2 ∧ s2 ≤ 0xBF ∧ 0x80 ≤ s3 ∧ s3 ≤ 0xBF then
          ((((s0 % 8) * 64 + s1 % 64) * 64 + s2 % 64) * 64 + s3 % 64, 4)
        else (RuneError, 1)
      | _ => (RuneError, 1)
    else (RuneError, 1)

/-- Go `utf8.EncodeRune` / `utf8.AppendRune`. -/
def EncodeRune (r : Nat) : Bytes :=
  if r ≤ 0x7F then [r]
  else if r ≤ 0x7FF then [0xC0 + r / 64, 0x80 + r % 64]
  else if r > 0x10FFFF ∨ (0xD800 ≤ r ∧ r ≤ 0xDFFF) then [0xEF, 0xBF, 0xBD]
  else if r ≤ 0xFFFF then [0xE0 + r / 4096, 0x80 + r / 64 % 64, 0x80 + r % 64]
  else [0xF0 + r / 262144, 0x80 + r / 4096 % 64, 0x80 + r / 64 % 64, 0x80 + r % 64]

/-! ## `encoding/json`: `Marshal` of a `*Pinned` -/

/-- The digit `hex[n]` of Go `const hex = "0123456789abcdef"`. -/
def hex (n : Nat) : Nat := if n < 10 then 48 + n else 87 + n

/-- Go `htmlSafeSet[b]`: the ASCII bytes that `Marshal` copies unescaped. -/
def htmlSafeSet (b : Nat) : Bool :=
  decide (0x20 ≤ b ∧ b < 0x80 ∧ b ≠ 34 ∧ b ≠ 38 ∧ b ≠ 60 ∧ b ≠ 62 ∧ b ≠ 92)

/-- The escape that `appendString` writes for an ASCII byte outside
`htmlSafeSet` (the `switch b` of its loop). -/
def escapeByte (b : Nat) : Bytes :=
  if b = 92 ∨ b = 34 then [92, b]
  else if b = 8 then ascii "\\b"
  else if b = 12 then ascii "\\f"
  else if b = 10 then ascii "\\n"
  else if b = 13 then ascii "\\r"
  else if b = 9 then ascii "\\t"
  else ascii "\\u00" ++ [hex (b / 16), hex (b % 16)]

/-- The loop of Go `appendString(dst, src, escapeHTML = true)`: the bytes
written for the rest `src[i:]` of the source. Every iteration consumes at
least one byte, so `fuel ≥ len(src[i:])` never runs out. -/
def appendStringLoop : Nat → Bytes → Bytes
  | 0, _ => []
  | _, [] => []
  | fuel + 1, b :: rest =>
    if b < 0x80 then
      (if htmlSafeSet b then [b] else escapeByte b) ++ appendStringLoop fuel rest
    else
      let cs := DecodeRune (b :: rest)
      if cs.1 = RuneError ∧ cs.2 = 1 then
        ascii "\\ufffd" ++ appendStringLoop fuel rest
      else if cs.1 = 0x2028 ∨ cs.1 = 0x2029 then
        ascii "\\u202" ++ [hex (cs.1 % 16)] ++ appendStringLoop fuel ((b :: rest).drop cs.2)
      else
        (b :: rest).take cs.2 ++ appendStringLoop fuel ((b :: rest).drop cs.2)

/-- Go `appendString`: a JSON string literal for `src`. -/
def appendString (src : Bytes) : Bytes :=
  [34] ++ appendStringLoop src.length src ++ [34]

/-- The JSON object `Marshal` writes for one `Pin`: `url` always, `label` and
`customScreenshotURL` only when non-empty (`omitempty`). -/
def marshalPin (p : Pin) : Bytes :=
  ascii "\x7b\"url\":" ++ appendString p.URL
    ++ (if p.Label = [] then [] else ascii ",\"label\":" ++ appendString p.Label)
    ++ (if p.Icon = [] then [] else ascii ",\"customScreenshotURL\":" ++ appendString p.Icon)
    ++ ascii "\x7d"

/-- Go `json.Marshal(p)` for `p *Pinned`. Its error result is always nil for
this type. -/
def Marshal : Pinned → Bytes
  | none => ascii "null"
  | some ps => ascii "[" ++ Join (ascii ",") (ps.map marshalPin) ++ ascii "]"

/-! ## `Save` -/

/-- The line `cfg` of `Save`:
`fmt.Sprintf("%s\"%s\");", PINNED_CFG, strings.ReplaceAll(string(json), "\"", "\\\""))`. -/
def cfgLine (p : Pinned) : Bytes :=
  PINNED_CFG ++ [34] ++ ReplaceAll (Marshal p) 34 (ascii "\\\"") ++ ascii "\");"

/-- The `for i, line := range lines` loop of `Save`: the lines after the
loop, and the flag `replaced`. -/
def replaceLoop (cfg : Bytes) : List Bytes → List Bytes × Bool
  | [] => ([], false)
  | line :: lines =>
    if HasPrefix line PINNED_CFG then (cfg :: lines, true)
    else ((replaceLoop cfg lines).1.cons line, (replaceLoop cfg lines).2)

/-- The lines `Save` joins: the result of the replace loop, with `cfg`
appended when nothing was replaced. -/
def spliceLines (cfg : Bytes) (lines : List Bytes) : List Bytes :=
  if !(replaceLoop cfg lines).2 then (replaceLoop cfg lines).1 ++ [cfg]
  else (replaceLoop cfg lines).1

/-- The content `Save` hands to `os.WriteFile` for the content `data` it read
and the new line `cfg`: `strings.Join(lines, "\n")` after the replace loop and
the append. -/
def spliceData (cfg : Bytes) (data : Bytes) : Bytes :=
  Join [NL] (spliceLines cfg (Split NL data))

/-! ## `isRunning` -/

/-- One match of `filepath.Glob("/proc/*/exe")`: the directory name under
`/proc` and the link target of its `exe` (`none` when `os.Readlink` fails). -/
structure ProcEntry where
  name : Bytes
  exe : Option Bytes
deriving DecidableEq, Repr

/-- Go `fmt.Sprint(n)` for a non-negative `int`. -/
def Sprint (n : Nat) : Bytes := (Nat.toDigits 10 n).map Char.toNat

/-- The path `/proc/<name>/exe` that `filepath.Glob` returns for an entry. -/
def ProcEntry.path (e : ProcEntry) : Bytes := ascii "/proc/" ++ e.name ++ ascii "/exe"

/-- The `for _, match := range matches` loop of `isRunning`, with `pid` the
decimal text of `os.Getpid()`. A failed `os.Readlink` yields the empty
target. -/
def isRunningLoop (pid : Bytes) : List ProcEntry → Bool
  | [] => false
  | e :: es =>
    if Contains e.path pid || Contains e.path (ascii "self") then isRunningLoop pid es
    else if Contains (e.exe.getD []) (ascii "firefox") then true
    else isRunningLoop pid es

/-- Go `isRunning()`, for the calling process id and the entries of `/proc`. -/
def isRunning (pid : Nat) (procs : List ProcEntry) : Bool :=
  isRunningLoop (Sprint pid) procs

/-- The part of the machine that `Load` and `Save` see. -/
structure World where
  /-- content of `<profile>/prefs.js`; `none` when `os.ReadFile` fails -/
  prefs : Option Bytes
  /-- `os.Getpid()` -/
  pid : Nat
  /-- the matches of `/proc/*/exe` -/
  procs : List ProcEntry
  /-- what a call of `os.WriteFile` on `prefs.js` will meet: `none` when the
  write goes through; `some c` when it fails, `c` being the state of the file
  it leaves behind (the old content when the file cannot be opened for
  writing, a truncated or partial content when the write breaks off) -/
  writeFault : Option (Option Bytes)
deriving DecidableEq, Repr

/-- Go `os.WriteFile(file, data, 0644)` on `prefs.js`: the returned error and
the world after the call. A write that goes through replaces the content by
`data`; one that fails returns its error and leaves the state the world
names. -/
def WriteFile (w : World) (data : Bytes) : Option Error × World :=
  match w.writeFault with
  | none => (none, { w with prefs := some data })
  | some left => (some Error.writeFile, { w with prefs := left })

/-- Go `(p *Pinned) Save(profile)`: the returned error and the world after the
call. `json.Marshal` returns no error for a `*Pinned`; the result of
`os.WriteFile` is returned as it is. -/
def Save (p : Pinned) (w : World) : Option Error × World :=
  match w.prefs with
  | none => (some Error.readFile, w)
  | some data =>
    let cfg := cfgLine p
    let lines := spliceLines cfg (Split NL data)
    if isRunning w.pid w.procs then
      (some (Error.errorsNew "Firefox is running, please close it"), w)
    else
      WriteFile w (Join [NL] lines)

/-! ## `encoding/json`: `Unmarshal` into a `*Pinned` -/

/-- A JSON value as the decoder sees it. Strings and object keys are held
unquoted; the digits of a number are not kept, no field of `Pin` takes one. -/
inductive JSON where
  | null
  | bool (b : Bool)
  | number
  | string (s : Bytes)
  | array (elems : List JSON)
  | object (members : List (Bytes × JSON))

/-- Go `isSpace(c)` of the JSON scanner. -/
def isSpace (c : Nat) : Bool := c == 32 || c == 9 || c == 13 || c == 10

/-- The scanner skipping white space. -/
def skipSpace (s : Bytes) : Bytes := s.dropWhile isSpace

/-- The value of a hexadecimal digit, as in Go `getu4`. -/
def hexVal (c : Nat) : Option Nat :=
  if 48 ≤ c ∧ c ≤ 57 then some (c - 48)
  else if 97 ≤ c ∧ c ≤ 102 then some (c - 87)
  else if 65 ≤ c ∧ c ≤ 70 then some (c - 55)
  else none

/-- Go `getu4(s)`: the rune of a leading `\uXXXX`, `none` for Go's `-1`. -/
def getu4 : Bytes → Option Nat
  | b :: u :: h1 :: h2 :: h3 :: h4 :: _ =>
    if b = 92 ∧ u = 117 then
      match hexVal h1, hexVal h2, hexVal h3, hexVal h4 with
      | some a, some b, some c, some d => some (((a * 16 + b) * 16 + c) * 16 + d)
      | _, _, _, _ => none
    else none
  | _ => none

/-- The scanner inside a string literal (`stateInString` and its escape
states), entered after the opening quote: the raw text up to the closing
quote and the input after it; `none` is a syntax error. -/
def scanString : Bytes → Option (Bytes × Bytes)
  | [] => none
  | c :: s =>
    if c = 34 then some ([], s)
    else if c = 92 then
      match s with
      | [] => none
      | e :: s1 =>
        if e = 117 then
          match s1 with
          | h1 :: h2 :: h3 :: h4 :: s2 =>
            if (hexVal h1).isSome ∧ (hexVal h2).isSome ∧ (hexVal h3).isSome
                ∧ (hexVal h4).isSome then
              (scanString s2).map (fun r => (c :: e :: h1 :: h2 :: h3 :: h4 :: r.1, r.2))
            else none
          | _ => none
        else if e = 98 ∨ e = 102 ∨ e = 110 ∨ e = 114 ∨ e = 116 ∨ e = 92 ∨ e = 47 ∨ e = 34 then
          (scanString s1).map (fun r => (c :: e :: r.1, r.2))
        else none
    else if c < 0x20 then none
    else (scanString s).map (fun r => (c :: r.1, r.2))

/-- The loop of Go `unquoteBytes` over the text between the quotes. Every
iteration consumes at least one byte. -/
def unquoteLoop : Nat → Bytes → Option Bytes
  | 0, [] => some []
  | 0, _ :: _ => none
  | _ + 1, [] => some []
  | fuel + 1, c :: s =>
    if c = 92 then
      match s with
      | [] => none
      | e :: s1 =>
        if e = 34 ∨ e = 92 ∨ e = 47 ∨ e = 39 then (unquoteLoop fuel s1).map (e :: ·)
        else if e = 98 then (unquoteLoop fuel s1).map (8 :: ·)
        else if e = 102 then (unquoteLoop fuel s1).map (12 :: ·)
        else if e = 110 then (unquoteLoop fuel s1).map (10 :: ·)
        else if e = 114 then (unquoteLoop fuel s1).map (13 :: ·)
        else if e = 116 then (unquoteLoop fuel s1).map (9 :: ·)
        else if e = 117 then
          match getu4 (c :: s) with
          | none => none
          | some rr =>
            if 0xD800 ≤ rr ∧ rr < 0xE000 then
              match getu4 (s1.drop 4) with
              | some rr1 =>
                if rr < 0xDC00 ∧ 0xDC00 ≤ rr1 ∧ rr1 < 0xE000 then
                  (unquoteLoop fuel (s1.drop 10)).map
                    (EncodeRune ((rr - 0xD800) * 1024 + (rr1 - 0xDC00) + 0x10000) ++ ·)
                else (unquoteLoop fuel (s1.drop 4)).map (EncodeRune RuneError ++ ·)
              | none => (unquoteLoop fuel (s1.drop 4)).map (EncodeRune RuneError ++ ·)
            else (unquoteLoop fuel (s1.drop 4)).map (EncodeRune rr ++ ·)
        else none
    else if c = 34 ∨ c < 0x20 then none
    else if c < 0x80 then (unquoteLoop fuel s).map (c :: ·)
    else
      (unquoteLoop fuel ((c :: s).drop (DecodeRune (c :: s)).2)).map
        (EncodeRune (DecodeRune (c :: s)).1 ++ ·)

/-- Go `unquoteBytes`, applied to the text between the quotes of a literal. -/
def unquote (raw : Bytes) : Option Bytes := unquoteLoop raw.length raw

/-- A decimal digit. -/
def isDigit (c : Nat) : Bool := decide (48 ≤ c ∧ c ≤ 57)

/-- The scanner after the mantissa of a number (`stateE` onwards): the input
after the number. -/
def scanExp : Bytes → Option Bytes
  | [] => some []
  | c :: s =>
    if c = 101 ∨ c = 69 then
      match (match s with
        | [] => []
        | d :: t => if d = 43 ∨ d = 45 then t else d :: t) with
      | [] => none
      | d :: t => if isDigit d then some (t.dropWhile isDigit) else none
    else some (c :: s)

/-- The scanner after the integer part of a number (`state0`, `state1`). -/
def scanFrac : Bytes → Option Bytes
  | [] => some []
  | c :: s =>
    if c = 46 then
      match s with
      | [] => none
      | d :: t => if isDigit d then scanExp (t.dropWhile isDigit) else none
    else scanExp (c :: s)

/-- The scanner at the first digit of a number. -/
def scanInt : Bytes → Option Bytes
  | [] => none
  | c :: s =>
    if c = 48 then scanFrac s
    else if isDigit c then scanFrac (s.dropWhile isDigit)
    else none

/-- The scanner over a number that starts at the head of the input. -/
def scanNumber : Bytes → Option Bytes
  | [] => none
  | c :: s => if c = 45 then scanInt s else scanInt (c :: s)

/-- Go `maxNestingDepth` of the scanner. -/
def maxNestingDepth : Nat := 10000

mutual
/-- One JSON value at the head of the input (after white space) and the input
after it; `none` is a syntax error. `depth` is the number of open arrays and
objects. -/
def parseValue : Nat → Nat → Bytes → Option (JSON × Bytes)
  | 0, _, _ => none
  | fuel + 1, depth, s =>
    match skipSpace s with
    | [] => none
    | c :: t =>
      if c = 123 then
        if depth + 1 > maxNestingDepth then none
        else match skipSpace t with
          | [] => none
          | d :: u =>
            if d = 125 then some (JSON.object [], u)
            else (parseMembers fuel (depth + 1) (d :: u)).map (fun r => (JSON.object r.1, r.2))
      else if c = 91 then
        if depth + 1 > maxNestingDepth then none
        else match skipSpace t with
          | [] => none
          | d :: u =>
            if d = 93 then some (JSON.array [], u)
            else (parseElems fuel (depth + 1) (d :: u)).map (fun r => (JSON.array r.1, r.2))
      else if c = 34 then
        match scanString t with
        | none => none
        | some r => (unquote r.1).map (fun v => (JSON.string v, r.2))
      else if c = 45 ∨ isDigit c then (scanNumber (c :: t)).map (fun r => (JSON.number, r))
      else if HasPrefix (c :: t) (ascii "true") then some (JSON.bool true, t.drop 3)
      else if HasPrefix (c :: t) (ascii "false") then some (JSON.bool false, t.drop 4)
      else if HasPrefix (c :: t) (ascii "null") then some (JSON.null, t.drop 3)
      else none
/-- The elements of a non-empty array, up to and including its `]`. -/
def parseElems : Nat → Nat → Bytes → Option (List JSON × Bytes)
  | 0, _, _ => none
  | fuel + 1, depth, s =>
    match parseValue fuel depth s with
    | none => none
    | some r =>
      match skipSpace r.2 with
      | [] => none
      | c :: t =>
        if c = 44 then (parseElems fuel depth t).map (fun q => (r.1 :: q.1, q.2))
        else if c = 93 then some ([r.1], t)
        else none
/-- The members of a non-empty object, up to and including its `}`. -/
def parseMembers : Nat → Nat → Bytes → Option (List (Bytes × JSON) × Bytes)
  | 0, _, _ => none
  | fuel + 1, depth, s =>
    match skipSpace s with
    | [] => none
    | c :: t =>
      if c = 34 then
        match scanString t with
        | none => none
        | some k =>
          match unquote k.1, skipSpace k.2 with
          | some key, c2 :: t2 =>
            if c2 = 58 then
              match parseValue fuel depth t2 with
              | none => none
              | some r =>
                match skipSpace r.2 with
                | [] => none
                | c3 :: t3 =>
                  if c3 = 44 then
                    (parseMembers fuel depth t3).map (fun q => ((key, r.1) :: q.1, q.2))
                  else if c3 = 125 then some ([(key, r.1)], t3)
                  else none
            else none
          | _, _ => none
      else none
end

/-- The whole input as one JSON value, as Go `checkValid` accepts it: a value
with white space around it. Two units of fuel per input byte are enough for
every nesting. -/
def parseJSON (data : Bytes) : Option JSON :=
  match parseValue (2 * data.length + 2) 0 data with
  | none => none
  | some r => if skipSpace r.2 = [] then some r.1 else none

/-- The fields of `Pin`, by their JSON names. -/
inductive Field where
  | url | label | customScreenshotURL
deriving DecidableEq, Repr

/-- The JSON name of each field, in declaration order. -/
def fieldNames : List (Bytes × Field) :=
  [(ascii "url", Field.url), (ascii "label", Field.label),
   (ascii "customScreenshotURL", Field.customScreenshotURL)]

/-- The loop of Go `foldName`: ASCII letters are upper-cased, another rune is
replaced by the smallest rune of its `unicode.SimpleFold` orbit. The orbits
that reach ASCII are those of U+017F (to `S`) and U+212A (to `K`); the fold of
any other rune is not ASCII and is kept as the rune itself here, which does
not change whether a folded key equals a folded field name. -/
def foldNameLoop : Nat → Bytes → Bytes
  | 0, _ => []
  | _ + 1, [] => []
  | fuel + 1, c :: s =>
    if c < 0x80 then
      (if 97 ≤ c ∧ c ≤ 122 then c - 32 else c) :: foldNameLoop fuel s
    else
      (if (DecodeRune (c :: s)).1 = 0x17F then [83]
        else if (DecodeRune (c :: s)).1 = 0x212A then [75]
        else EncodeRune (DecodeRune (c :: s)).1)
      ++ foldNameLoop fuel ((c :: s).drop (DecodeRune (c :: s)).2)

/-- Go `foldName`. -/
def foldName (name : Bytes) : Bytes := foldNameLoop name.length name

/-- The field an object key selects: the exact name first, then the name
under case folding; `none` for an unknown key. -/
def findField (key : Bytes) : Option Field :=
  match fieldNames.find? (fun f => f.1 = key) with
  | some f => some f.2
  | none => (fieldNames.find? (fun f => foldName f.1 = foldName key)).map (·.2)

/-- Stores a string into a field of a pin. -/
def Pin.set (p : Pin) (f : Field) (v : Bytes) : Pin :=
  match f with
  | Field.url => { p with URL := v }
  | Field.label => { p with Label := v }
  | Field.customScreenshotURL => { p with Icon := v }

/-- The decoder's saved error: the first one is kept. -/
def saveError (saved : Option Error) (e : Option Error) : Option Error :=
  match saved with
  | some x => some x
  | none => e

/-- Decoding the members of a JSON object into a pin: a string is stored in
the field its key selects, `null` leaves the field as it is, any other value
is an `UnmarshalTypeError`; an unknown key is skipped. -/
def decodeMembers : List (Bytes × JSON) → Pin × Option Error → Pin × Option Error
  | [], st => st
  | (key, v) :: ms, st =>
    match findField key with
    | none => decodeMembers ms st
    | some f =>
      match v with
      | JSON.string x => decodeMembers ms (st.1.set f x, st.2)
      | JSON.null => decodeMembers ms st
      | _ => decodeMembers ms (st.1, saveError st.2 (some Error.jsonType))

/-- Decoding one array element into a zero-valued pin. -/
def decodePin (v : JSON) : Pin × Option Error :=
  match v with
  | JSON.object ms => decodeMembers ms (⟨[], [], []⟩, none)
  | JSON.null => (⟨[], [], []⟩, none)
  | _ => (⟨[], [], []⟩, some Error.jsonType)

/-- Decoding the elements of a JSON array into pins, in order. -/
def decodeElems : List JSON → List Pin × Option Error
  | [] => ([], none)
  | v :: vs =>
    ((decodePin v).1 :: (decodeElems vs).1, saveError (decodePin v).2 (decodeElems vs).2)

/-- Go `json.Unmarshal(data, p)` for a `p *Pinned` that points to the empty
`Pinned{}` (as in `main`): the returned error and the value of `*p` after the
call. A syntax error leaves `*p` alone; `null` makes it the nil slice; a value
of the wrong kind is an `UnmarshalTypeError`, returned after the rest has
been decoded. -/
def Unmarshal (data : Bytes) : Option Error × Pinned :=
  match parseJSON data with
  | none => (some Error.jsonSyntax, some [])
  | some (JSON.array vs) => ((decodeElems vs).2, some (decodeElems vs).1)
  | some JSON.null => (none, none)
  | some _ => (some Error.jsonType, some [])

/-! ## `Load` -/

/-- The text `Load` hands to `json.Unmarshal` for a line that starts with
`PINNED_CFG`:
`strings.ReplaceAll(strings.Trim(line[len(PINNED_CFG):], "\");"), "\\", "")`. -/
def pinnedJSON (line : Bytes) : Bytes :=
  ReplaceAll (Trim (line.drop PINNED_CFG.length) (ascii "\");")) 92 []

/-- The `for _, line := range strings.Split(string(data), "\n")` loop of
`Load` and the `return` after it. -/
def loadLoop : List Bytes → Option Error × Pinned
  | [] => (some (Error.errorsNew "No pinned sites found"), some [])
  | line :: lines =>
    if HasPrefix line PINNED_CFG then Unmarshal (pinnedJSON line)
    else loadLoop lines

/-- Go `(p *Pinned) Load(profile)` on the empty receiver `Pinned{}` of `main`:
the returned error and the value of `*p` after the call. -/
def Load (w : World) : Option Error × Pinned :=
  match w.prefs with
  | none => (some Error.readFile, some [])
  | some data => loadLoop (Split NL data)

/-! ## Lines: `Split` and `Join` -/

theorem Split_ne_nil (sep : Nat) (s : Bytes) : Split sep s ≠ [] := by
  cases s with
  | nil => simp [Split]
  | cons c s =>
    unfold Split
    split
    · simp
    · split <;> simp

theorem Join_cons_cons (sep : Bytes) (c : Nat) (l : Bytes) (ls : List Bytes) :
    Join sep ((c :: l) :: ls) = c :: Join sep (l :: ls) := by
  cases ls <;> simp [Join]

theorem Join_Split (sep : Nat) (s : Bytes) : Join [sep] (Split sep s) = s := by
  induction s with
  | nil => simp [Split, Join]
  | cons c s ih =>
    unfold Split
    split
    · next h =>
      cases hs : Split sep s with
      | nil => exact absurd hs (Split_ne_nil sep s)
      | cons l ls => rw [hs] at ih; simp [Join, ih, h]
    · split
      · next hs => exact absurd hs (Split_ne_nil sep s)
      · next l ls hs => rw [hs] at ih; rw [Join_cons_cons, ih]

theorem Split_of_not_mem (sep : Nat) (l : Bytes) (h : sep ∉ l) : Split sep l = [l] := by
  induction l with
  | nil => simp [Split]
  | cons c l ih =>
    have hc : c ≠ sep := fun e => h (by simp [e])
    have hl : sep ∉ l := fun e => h (by simp [e])
    simp [Split, hc, ih hl]

theorem Split_append_sep (sep : Nat) (l s : Bytes) (h : sep ∉ l) :
    Split sep (l ++ sep :: s) = l :: Split sep s := by
  induction l with
  | nil => simp [Split]
  | cons c l ih =>
    have hc : c ≠ sep := fun e => h (by simp [e])
    have hl : sep ∉ l := fun e => h (by simp [e])
    simp [Split, hc, ih hl]

theorem not_mem_of_mem_Split (sep : Nat) (s : Bytes) :
    ∀ l ∈ Split sep s, sep ∉ l := by
  induction s with
  | nil => simp [Split]
  | cons c s ih =>
    unfold Split
    split
    · intro l hl
      rcases List.mem_cons.1 hl with rfl | hl
      · simp
      · exact ih l hl
    · next hc =>
      split
      · intro l hl
        simp at hl
        subst hl
        simpa using fun e => hc e.symm
      · next l0 ls hs =>
        rw [hs] at ih
        intro l hl
        rcases List.mem_cons.1 hl with rfl | hl
        · have := ih l0 (by simp)
          simp only [List.mem_cons, not_or]
          exact ⟨fun e => hc e.symm, this⟩
        · exact ih l (by simp [hl])

theorem Split_Join (sep : Nat) (ls : List Bytes) (hne : ls ≠ [])
    (h : ∀ l ∈ ls, sep ∉ l) : Split sep (Join [sep] ls) = ls := by
  induction ls with
  | nil => exact absurd rfl hne
  | cons l ls ih =>
    cases ls with
    | nil => simpa [Join] using Split_of_not_mem sep l (h l (by simp))
    | cons l2 ls =>
      have e : Join [sep] (l :: l2 :: ls) = l ++ sep :: Join [sep] (l2 :: ls) := by
        simp [Join]
      rw [e, Split_append_sep sep l _ (h l (by simp)),
        ih (by simp) (fun x hx => h x (by simp [hx]))]

theorem Join_append_singleton (sep : Bytes) (ls : List Bytes) (hne : ls ≠ []) (c : Bytes) :
    Join sep (ls ++ [c]) = Join sep ls ++ sep ++ c := by
  induction ls with
  | nil => exact absurd rfl hne
  | cons l ls ih =>
    cases ls with
    | nil => simp [Join]
    | cons l2 ls =>
      have := ih (by simp)
      simp only [List.cons_append, Join] at this ⊢
      simp [this]

/-! ## The replace loop of `Save` -/

theorem replaceLoop_none (cfg : Bytes) (lines : List Bytes)
    (h : ∀ l ∈ lines, HasPrefix l PINNED_CFG = false) :
    replaceLoop cfg lines = (lines, false) := by
  induction lines with
  | nil => simp [replaceLoop]
  | cons l ls ih =>
    have hl := h l (by simp)
    have := ih (fun x hx => h x (by simp [hx]))
    simp [replaceLoop, hl, this]

theorem replaceLoop_flag (cfg : Bytes) (lines : List Bytes) :
    (replaceLoop cfg lines).2 = lines.any (fun l => HasPrefix l PINNED_CFG) := by
  induction lines with
  | nil => simp [replaceLoop]
  | cons l ls ih =>
    unfold replaceLoop
    split
    · next h => simp [h]
    · next h => simp [h, ih]

theorem replaceLoop_map (cfg : Bytes) (lines : List Bytes)
    (h : (lines.filter (fun l => HasPrefix l PINNED_CFG)).length ≤ 1) :
    (replaceLoop cfg lines).1
      = lines.map (fun l => if HasPrefix l PINNED_CFG then cfg else l) := by
  induction lines with
  | nil => simp [replaceLoop]
  | cons l ls ih =>
    unfold replaceLoop
    split
    · next hl =>
      simp only [List.filter_cons, hl, if_true, List.length_cons] at h
      have h0 : ls.filter (fun l => HasPrefix l PINNED_CFG) = [] :=
        List.eq_nil_of_length_eq_zero (by omega)
      have hid : ls.map (fun l => if HasPrefix l PINNED_CFG then cfg else l) = ls := by
        rw [List.filter_eq_nil_iff] at h0
        conv => rhs; rw [← List.map_id ls]
        apply List.map_congr_left
        intro x hx
        simp [h0 x hx]
      simp [hl, hid]
    · next hl =>
      simp only [List.filter_cons, hl] at h
      simp [hl, ih (by simpa using h)]

/-! ## No newline in the encoded line -/

theorem DecodeRune_take_ge (b : Nat) (rest : Bytes) (hb : 0x80 ≤ b) :
    ∀ x ∈ (b :: rest).take (DecodeRune (b :: rest)).2, 0x80 ≤ x := by
  intro x hx
  rcases rest with _ | ⟨s1, _ | ⟨s2, _ | ⟨s3, r⟩⟩⟩ <;>
    simp only [DecodeRune] at hx <;>
    split_ifs at hx <;>
    simp at hx <;>
    omega

theorem DecodeRune_size_pos (b : Nat) (rest : Bytes) : 1 ≤ (DecodeRune (b :: rest)).2 := by
  rcases rest with _ | ⟨s1, _ | ⟨s2, _ | ⟨s3, r⟩⟩⟩ <;>
    simp only [DecodeRune] <;>
    split_ifs <;>
    simp

theorem hex_ne_NL (n : Nat) : hex n ≠ NL := by
  unfold hex NL; split <;> omega

theorem NL_not_mem_escapeByte (b : Nat) : NL ∉ escapeByte b := by
  unfold escapeByte
  have := hex_ne_NL (b / 16)
  have := hex_ne_NL (b % 16)
  repeat' split
  all_goals simp_all [ascii, NL]
  all_goals omega

theorem NL_not_mem_appendStringLoop (fuel : Nat) (s : Bytes) :
    NL ∉ appendStringLoop fuel s := by
  induction fuel generalizing s with
  | zero => simp [appendStringLoop]
  | succ n ih =>
    cases s with
    | nil => simp [appendStringLoop]
    | cons b rest =>
      unfold appendStringLoop
      split
      · split
        · next hb hs =>
          simp only [htmlSafeSet, decide_eq_true_eq] at hs
          simp only [List.mem_append, List.mem_singleton, not_or]
          exact ⟨by unfold NL; omega, ih rest⟩
        · simp only [List.mem_append, not_or]
          exact ⟨NL_not_mem_escapeByte b, ih rest⟩
      · next hb =>
        simp only
        split
        · simp only [List.mem_append, not_or]
          exact ⟨by decide, ih rest⟩
        · split
          · simp only [List.mem_append, List.mem_singleton, not_or]
            exact ⟨⟨by decide, fun e => hex_ne_NL _ e.symm⟩, ih _⟩
          · simp only [List.mem_append, not_or]
            refine ⟨fun hmem => ?_, ih _⟩
            have := DecodeRune_take_ge b rest (by omega) NL hmem
            unfold NL at this
            omega

theorem NL_not_mem_appendString (s : Bytes) : NL ∉ appendString s := by
  have := NL_not_mem_appendStringLoop s.length s
  simp only [appendString, List.mem_append, not_or]
  exact ⟨⟨by decide, this⟩, by decide⟩

theorem NL_not_mem_marshalPin (p : Pin) : NL ∉ marshalPin p := by
  have h1 := NL_not_mem_appendString p.URL
  have h2 := NL_not_mem_appendString p.Label
  have h3 := NL_not_mem_appendString p.Icon
  have a1 : NL ∉ ascii "\x7b\"url\":" := by decide
  have a2 : NL ∉ ascii ",\"label\":" := by decide
  have a3 : NL ∉ ascii ",\"customScreenshotURL\":" := by decide
  have a4 : NL ∉ ascii "\x7d" := by decide
  unfold marshalPin
  simp only [List.mem_append, not_or]
  refine ⟨⟨⟨⟨a1, h1⟩, ?_⟩, ?_⟩, a4⟩
  · split
    · simp
    · simp only [List.mem_append, not_or]; exact ⟨a2, h2⟩
  · split
    · simp
    · simp only [List.mem_append, not_or]; exact ⟨a3, h3⟩

theorem not_mem_Join (x : Nat) (sep : Bytes) (ls : List Bytes) (hs : x ∉ sep)
    (h : ∀ l ∈ ls, x ∉ l) : x ∉ Join sep ls := by
  induction ls with
  | nil => simp [Join]
  | cons l ls ih =>
    cases ls with
    | nil => simpa [Join] using h l (by simp)
    | cons l2 ls =>
      simp only [Join, List.mem_append, not_or]
      exact ⟨⟨h l (by simp), hs⟩, ih (fun y hy => h y (by simp [hy]))⟩

theorem NL_not_mem_Marshal (p : Pinned) : NL ∉ Marshal p := by
  cases p with
  | none => simp only [Marshal]; decide
  | some ps =>
    simp only [Marshal, List.mem_append, not_or]
    refine ⟨⟨by decide, ?_⟩, by decide⟩
    apply not_mem_Join _ _ _ (by decide)
    intro l hl
    obtain ⟨p, _, rfl⟩ := List.mem_map.1 hl
    exact NL_not_mem_marshalPin p

theorem NL_not_mem_cfgLine (p : Pinned) : NL ∉ cfgLine p := by
  simp only [cfgLine, List.mem_append, not_or]
  refine ⟨⟨⟨by decide, by decide⟩, ?_⟩, by decide⟩
  simp only [ReplaceAll, List.mem_flatMap, not_exists, not_and]
  intro c hc
  split
  · decide
  · simp only [List.mem_singleton]
    exact fun e => NL_not_mem_Marshal p (e ▸ hc)

theorem HasPrefix_append (pre s : Bytes) : HasPrefix (pre ++ s) pre = true := by
  induction pre with
  | nil => cases s <;> simp [HasPrefix]
  | cons c pre ih => simp [HasPrefix, ih]

theorem HasPrefix_cfgLine (p : Pinned) : HasPrefix (cfgLine p) PINNED_CFG = true := by
  simp only [cfgLine, List.append_assoc]
  exact HasPrefix_append _ _

theorem replaceLoop_findIdx (cfg : Bytes) (lines : List Bytes) (i : Nat)
    (h : lines.findIdx? (fun l => HasPrefix l PINNED_CFG) = some i) :
    replaceLoop cfg lines = (lines.set i cfg, true) := by
  induction lines generalizing i with
  | nil => simp at h
  | cons l ls ih =>
    rw [List.findIdx?_cons] at h
    split at h
    · next hl =>
      simp at h
      subst h
      simp [replaceLoop, hl]
    · next hl =>
      rw [List.findIdx?_succ] at h
      simp only [Option.map_eq_some'] at h
      obtain ⟨k, hk, rfl⟩ := h
      simp [replaceLoop, hl, ih k hk]

theorem find?_set_findIdx (L : Bytes) (lines : List Bytes) (i : Nat)
    (hL : HasPrefix L PINNED_CFG = true)
    (h : lines.findIdx? (fun l => HasPrefix l PINNED_CFG) = some i) :
    (lines.set i L).find? (fun l => HasPrefix l PINNED_CFG) = some L := by
  induction lines generalizing i with
  | nil => simp at h
  | cons l ls ih =>
    rw [List.findIdx?_cons] at h
    split at h
    · next hl =>
      simp at h
      subst h
      simp [hL]
    · next hl =>
      rw [List.findIdx?_succ] at h
      simp only [Option.map_eq_some'] at h
      obtain ⟨k, hk, rfl⟩ := h
      simp [hl, ih k hk]

theorem mem_set_of (L : Bytes) (lines : List Bytes) (i : Nat) (x : Bytes)
    (hx : x ∈ lines.set i L) : x = L ∨ x ∈ lines := by
  induction lines generalizing i with
  | nil => simp at hx
  | cons l ls ih =>
    cases i with
    | zero =>
      simp at hx
      rcases hx with h | h
      · exact Or.inl h
      · exact Or.inr (by simp [h])
    | succ i =>
      simp at hx
      rcases hx with h | h
      · exact Or.inr (by simp [h])
      · rcases ih i h with h | h
        · exact Or.inl h
        · exact Or.inr (by simp [h])

theorem Split_spliceData_replaced (L F : Bytes) (i : Nat) (hnl : NL ∉ L)
    (h : (Split NL F).findIdx? (fun l => HasPrefix l PINNED_CFG) = some i) :
    Split NL (spliceData L F) = (Split NL F).set i L := by
  unfold spliceData spliceLines
  rw [replaceLoop_findIdx L _ i h]
  simp only [Bool.not_true, Bool.false_eq_true, if_false]
  apply Split_Join
  · intro e
    have := congrArg List.length e
    simp at this
    exact Split_ne_nil NL F this
  · intro x hx
    rcases mem_set_of L _ i x hx with rfl | hx
    · exact hnl
    · exact not_mem_of_mem_Split NL F x hx

theorem spliceData_appended (L F : Bytes)
    (h : ∀ l ∈ Split NL F, HasPrefix l PINNED_CFG = false) :
    spliceData L F = F ++ [NL] ++ L := by
  unfold spliceData spliceLines
  rw [replaceLoop_none L _ h]
  simp only [Bool.not_false, if_true]
  rw [Join_append_singleton _ _ (Split_ne_nil NL F), Join_Split]

theorem Split_spliceData_appended (L F : Bytes) (hnl : NL ∉ L)
    (h : ∀ l ∈ Split NL F, HasPrefix l PINNED_CFG = false) :
    Split NL (spliceData L F) = Split NL F ++ [L] := by
  unfold spliceData spliceLines
  rw [replaceLoop_none L _ h]
  simp only [Bool.not_false, if_true]
  apply Split_Join
  · simp
  · intro x hx
    rcases List.mem_append.1 hx with hx | hx
    · exact not_mem_of_mem_Split NL F x hx
    · simp at hx; subst hx; exact hnl

theorem Save_not_running (P : Pinned) (F : Bytes) (pid : Nat) (procs : List ProcEntry)
    (wf : Option (Option Bytes)) (hrun : isRunning pid procs = false) :
    Save P ⟨some F, pid, procs, wf⟩
      = WriteFile ⟨some F, pid, procs, wf⟩ (spliceData (cfgLine P) F) := by
  simp [Save, hrun, spliceData]

theorem WriteFile_ok (F : Option Bytes) (pid : Nat) (procs : List ProcEntry) (data : Bytes) :
    WriteFile ⟨F, pid, procs, none⟩ data = (none, ⟨some data, pid, procs, none⟩) := by
  simp [WriteFile]

theorem WriteFile_fault (F left : Option Bytes) (pid : Nat) (procs : List ProcEntry)
    (data : Bytes) :
    WriteFile ⟨F, pid, procs, some left⟩ data
      = (some Error.writeFile, ⟨left, pid, procs, some left⟩) := by
  simp [WriteFile]

theorem loadLoop_find (lines : List Bytes) (L : Bytes)
    (h : lines.find? (fun l => HasPrefix l PINNED_CFG) = some L) :
    loadLoop lines = Unmarshal (pinnedJSON L) := by
  induction lines with
  | nil => simp at h
  | cons l ls ih =>
    rw [List.find?_cons] at h
    unfold loadLoop
    split at h
    · next hl => simp at h; subst h; simp [hl]
    · next hl => simp [hl, ih h]

theorem loadLoop_none (lines : List Bytes)
    (h : ∀ l ∈ lines, HasPrefix l PINNED_CFG = false) :
    loadLoop lines = (some (Error.errorsNew "No pinned sites found"), some []) := by
  induction lines with
  | nil => simp [loadLoop]
  | cons l ls ih =>
    simp [loadLoop, h l (by simp), ih (fun x hx => h x (by simp [hx]))]

theorem saveError_cases (a b : Option Error)
    (ha : a = none ∨ a = some Error.jsonType) (hb : b = none ∨ b = some Error.jsonType) :
    saveError a b = none ∨ saveError a b = some Error.jsonType := by
  rcases ha with rfl | rfl <;> simp [saveError, hb]

theorem decodeMembers_error (ms : List (Bytes × JSON)) (st : Pin × Option Error)
    (h : st.2 = none ∨ st.2 = some Error.jsonType) :
    (decodeMembers ms st).2 = none ∨ (decodeMembers ms st).2 = some Error.jsonType := by
  induction ms generalizing st with
  | nil => simpa [decodeMembers] using h
  | cons m ms ih =>
    obtain ⟨key, v⟩ := m
    unfold decodeMembers
    split
    · exact ih st h
    · split
      · exact ih _ h
      · exact ih _ h
      · exact ih _ (saveError_cases _ _ h (Or.inr rfl))

theorem decodePin_error (v : JSON) :
    (decodePin v).2 = none ∨ (decodePin v).2 = some Error.jsonType := by
  unfold decodePin
  split
  · exact decodeMembers_error _ _ (Or.inl rfl)
  · exact Or.inl rfl
  · exact Or.inr rfl

theorem decodeElems_error (vs : List JSON) :
    (decodeElems vs).2 = none ∨ (decodeElems vs).2 = some Error.jsonType := by
  induction vs with
  | nil => simp [decodeElems]
  | cons v vs ih =>
    unfold decodeElems
    exact saveError_cases _ _ (decodePin_error v) ih

theorem Unmarshal_error (data : Bytes) :
    (Unmarshal data).1 = none ∨ (Unmarshal data).1 = some Error.jsonSyntax
      ∨ (Unmarshal data).1 = some Error.jsonType := by
  unfold Unmarshal
  split
  · simp
  · rcases decodeElems_error ‹_› with h | h <;> simp [h]
  · simp
  · simp

/-! ## The fuel of the byte loops is never used up -/

theorem length_drop_DecodeRune_le (b : Nat) (rest : Bytes) :
    ((b :: rest).drop (DecodeRune (b :: rest)).2).length ≤ rest.length := by
  have := DecodeRune_size_pos b rest
  simp only [List.length_drop, List.length_cons]
  omega

theorem appendStringLoop_fuel_irrel (n m : Nat) (s : Bytes)
    (hn : s.length ≤ n) (hm : s.length ≤ m) :
    appendStringLoop n s = appendStringLoop m s := by
  induction n generalizing m s with
  | zero =>
    have : s = [] := List.eq_nil_of_length_eq_zero (by omega)
    subst this
    cases m <;> simp [appendStringLoop]
  | succ n ih =>
    cases s with
    | nil => cases m <;> simp [appendStringLoop]
    | cons b rest =>
      cases m with
      | zero => simp at hm
      | succ m =>
        simp only [List.length_cons] at hn hm
        have h1 := ih m rest (by omega) (by omega)
        have hd := length_drop_DecodeRune_le b rest
        have h2 := ih m ((b :: rest).drop (DecodeRune (b :: rest)).2) (by omega) (by omega)
        simp only [appendStringLoop, h1, h2]

/-- More fuel than the length of the source does not change what
`appendString` writes: its loop never runs out of fuel. -/
theorem appendStringLoop_fuel (n : Nat) (s : Bytes) (h : s.length ≤ n) :
    appendStringLoop n s = appendStringLoop s.length s :=
  appendStringLoop_fuel_irrel n s.length s h (Nat.le_refl _)

theorem unquoteLoop_fuel_irrel (n m : Nat) (s : Bytes)
    (hn : s.length ≤ n) (hm : s.length ≤ m) :
    unquoteLoop n s = unquoteLoop m s := by
  induction n generalizing m s with
  | zero =>
    have : s = [] := List.eq_nil_of_length_eq_zero (by omega)
    subst this
    cases m <;> simp [unquoteLoop]
  | succ n ih =>
    cases s with
    | nil => cases m <;> simp [unquoteLoop]
    | cons c s =>
      cases m with
      | zero => simp at hm
      | succ m =>
        simp only [List.length_cons] at hn hm
        have h1 := ih m s (by omega) (by omega)
        have hd := length_drop_DecodeRune_le c s
        have h2 := ih m ((c :: s).drop (DecodeRune (c :: s)).2) (by omega) (by omega)
        cases s with
        | nil =>
          rw [unquoteLoop, unquoteLoop]
          simp only [h1, h2]
        | cons e s1 =>
          simp only [List.length_cons] at hn hm
          have h3 := ih m s1 (by omega) (by omega)
          have h4 := ih m (s1.drop 4) (by simp; omega) (by simp; omega)
          have h5 := ih m (s1.drop 10) (by simp; omega) (by simp; omega)
          rw [unquoteLoop, unquoteLoop]
          simp only [h1, h2, h3, h4, h5]

/-- More fuel than the length of the literal does not change the result of
`unquote`: its loop never runs out of fuel. -/
theorem unquoteLoop_fuel (n : Nat) (s : Bytes) (h : s.length ≤ n) :
    unquoteLoop n s = unquoteLoop s.length s :=
  unquoteLoop_fuel_irrel n s.length s h (Nat.le_refl _)

theorem foldNameLoop_fuel_irrel (n m : Nat) (s : Bytes)
    (hn : s.length ≤ n) (hm : s.length ≤ m) :
    foldNameLoop n s = foldNameLoop m s := by
  induction n generalizing m s with
  | zero =>
    have : s = [] := List.eq_nil_of_length_eq_zero (by omega)
    subst this
    cases m <;> simp [foldNameLoop]
  | succ n ih =>
    cases s with
    | nil => cases m <;> simp [foldNameLoop]
    | cons b rest =>
      cases m with
      | zero => simp at hm
      | succ m =>
        simp only [List.length_cons] at hn hm
        have h1 := ih m rest (by omega) (by omega)
        have hd := length_drop_DecodeRune_le b rest
        have h2 := ih m ((b :: rest).drop (DecodeRune (b :: rest)).2) (by omega) (by omega)
        simp only [foldNameLoop, h1, h2]

/-- More fuel than the length of the name does not change `foldName`. -/
theorem foldNameLoop_fuel (n : Nat) (s : Bytes) (h : s.length ≤ n) :
    foldNameLoop n s = foldNameLoop s.length s :=
  foldNameLoop_fuel_irrel n s.length s h (Nat.le_refl _)

/-! ## The fuel of the JSON parser is never used up -/

theorem length_dropWhile_le (p : Nat → Bool) (s : Bytes) :
    (s.dropWhile p).length ≤ s.length := by
  induction s with
  | nil => simp
  | cons c s ih =>
    rw [List.dropWhile_cons]
    split
    · simp only [List.length_cons]; omega
    · simp

theorem skipSpace_length_le (s : Bytes) : (skipSpace s).length ≤ s.length :=
  length_dropWhile_le _ s

theorem scanString_length_aux (n : Nat) :
    ∀ (s : Bytes) (r : Bytes × Bytes), s.length ≤ n → scanString s = some r →
      r.2.length < s.length := by
  induction n with
  | zero =>
    intro s r hn h
    have : s = [] := List.eq_nil_of_length_eq_zero (by omega)
    subst this
    simp [scanString] at h
  | succ n ih =>
    intro s r hn h
    rcases s with _ | ⟨c, s⟩
    · simp [scanString] at h
    · rw [scanString.eq_def] at h; simp only at h
      simp only [List.length_cons] at hn ⊢
      split_ifs at h with h1 h2 h3
      · simp at h; subst h; simp
      · rcases s with _ | ⟨e, s1⟩
        · simp at h
        · simp only at h
          split_ifs at h with h4 h5
          · rcases s1 with _ | ⟨a1, _ | ⟨a2, _ | ⟨a3, _ | ⟨a4, s2⟩⟩⟩⟩
            · simp at h
            · simp at h
            · simp at h
            · simp at h
            simp only at h
            split_ifs at h
            simp only [Option.map_eq_some'] at h
            obtain ⟨q, hq, rfl⟩ := h
            have := ih s2 q (by simp only [List.length_cons] at hn; omega) hq
            simp only [List.length_cons]
            omega
          · simp only [Option.map_eq_some'] at h
            obtain ⟨q, hq, rfl⟩ := h
            have := ih s1 q (by simp only [List.length_cons] at hn; omega) hq
            simp only [List.length_cons]
            omega
      · simp only [Option.map_eq_some'] at h
        obtain ⟨q, hq, rfl⟩ := h
        have := ih s q (by omega) hq
        simp only
        omega

theorem scanString_length (s : Bytes) (r : Bytes × Bytes) (h : scanString s = some r) :
    r.2.length < s.length :=
  scanString_length_aux s.length s r (Nat.le_refl _) h

theorem scanExp_length (s r : Bytes) (h : scanExp s = some r) : r.length ≤ s.length := by
  rcases s with _ | ⟨c, s⟩
  · simp [scanExp] at h; subst h; simp
  · rw [scanExp.eq_def] at h; simp only at h
    split_ifs at h with h1
    · rcases s with _ | ⟨d, t⟩
      · simp at h
      · simp only at h
        split_ifs at h with h2
        · rcases t with _ | ⟨d2, t2⟩
          · simp at h
          · simp only at h
            split_ifs at h
            simp at h; subst h
            have := length_dropWhile_le isDigit t2
            simp only [List.length_cons]; omega
        · simp only at h
          split_ifs at h
          simp at h; subst h
          have := length_dropWhile_le isDigit t
          simp only [List.length_cons]; omega
    · simp at h; subst h; simp

theorem scanFrac_length (s r : Bytes) (h : scanFrac s = some r) : r.length ≤ s.length := by
  rcases s with _ | ⟨c, s⟩
  · simp [scanFrac] at h; subst h; simp
  · rw [scanFrac.eq_def] at h; simp only at h
    split_ifs at h with h1
    · rcases s with _ | ⟨d, t⟩
      · simp at h
      · simp only at h
        split_ifs at h
        have := scanExp_length _ _ h
        have := length_dropWhile_le isDigit t
        simp only [List.length_cons]; omega
    · exact scanExp_length _ _ h

theorem scanInt_length (s r : Bytes) (h : scanInt s = some r) : r.length < s.length := by
  rcases s with _ | ⟨c, s⟩
  · simp [scanInt] at h
  · rw [scanInt] at h
    split_ifs at h
    · have := scanFrac_length _ _ h
      simp only [List.length_cons]; omega
    · have := scanFrac_length _ _ h
      have := length_dropWhile_le isDigit s
      simp only [List.length_cons]; omega

theorem scanNumber_length (s r : Bytes) (h : scanNumber s = some r) : r.length < s.length := by
  rcases s with _ | ⟨c, s⟩
  · simp [scanNumber] at h
  · rw [scanNumber] at h
    split_ifs at h
    · have := scanInt_length _ _ h
      simp only [List.length_cons]; omega
    · exact scanInt_length _ _ h

theorem parse_fuel_aux (m : Nat) :
    (∀ d s r, parseValue m d s = some r → r.2.length < s.length ∧
      ∀ n, 2 * (s.length - r.2.length) ≤ n + 1 → parseValue n d s = some r) ∧
    (∀ d s r, parseElems m d s = some r → r.2.length < s.length ∧
      ∀ n, 2 * (s.length - r.2.length) ≤ n → parseElems n d s = some r) ∧
    (∀ d s r, parseMembers m d s = some r → r.2.length < s.length ∧
      ∀ n, 2 * (s.length - r.2.length) ≤ n → parseMembers n d s = some r) := by
  induction m with
  | zero => simp [parseValue, parseElems, parseMembers]
  | succ m ih =>
    obtain ⟨ihV, ihE, ihM⟩ := ih
    refine ⟨?_, ?_, ?_⟩
    · intro d s r h
      rw [parseValue] at h
      have hsp := skipSpace_length_le s
      split at h
      · simp at h
      · next c t hs =>
        rw [hs] at hsp
        simp only [List.length_cons] at hsp
        have hsp2 := skipSpace_length_le t
        split_ifs at h with h1 h2 h3 h4 h5 h6 h7 h8 h9
        · -- an object
          split at h
          · simp at h
          · next d1 u hs2 =>
            rw [hs2] at hsp2
            simp only [List.length_cons] at hsp2
            split_ifs at h with h10
            · simp only [Option.some.injEq] at h
              subst h
              refine ⟨by simp only; omega, fun n hn => ?_⟩
              cases n with
              | zero => simp only at hn; omega
              | succ n => rw [parseValue, hs]; simp only [h1, h2, hs2, h10, if_true, if_false]
            · simp only [Option.map_eq_some'] at h
              obtain ⟨q, hq, rfl⟩ := h
              obtain ⟨hl, hb⟩ := ihM _ _ _ hq
              simp only [List.length_cons] at hl hb
              refine ⟨by simp only; omega, fun n hn => ?_⟩
              simp only at hn
              cases n with
              | zero => omega
              | succ n =>
                rw [parseValue, hs]
                simp only [h1, h2, hs2, h10, if_true, if_false]
                rw [hb n (by omega)]
                rfl
        · -- an array
          split at h
          · simp at h
          · next d1 u hs2 =>
            rw [hs2] at hsp2
            simp only [List.length_cons] at hsp2
            split_ifs at h with h10
            · simp only [Option.some.injEq] at h
              subst h
              refine ⟨by simp only; omega, fun n hn => ?_⟩
              cases n with
              | zero => simp only at hn; omega
              | succ n => rw [parseValue, hs]; simp only [h1, h3, h4, hs2, h10, if_true, if_false]; simp
            · simp only [Option.map_eq_some'] at h
              obtain ⟨q, hq, rfl⟩ := h
              obtain ⟨hl, hb⟩ := ihE _ _ _ hq
              simp only [List.length_cons] at hl hb
              refine ⟨by simp only; omega, fun n hn => ?_⟩
              simp only at hn
              cases n with
              | zero => omega
              | succ n =>
                rw [parseValue, hs]
                simp only [h1, h3, h4, hs2, h10, if_true, if_false]
                rw [hb n (by omega)]
                rfl
        · -- a string
          split at h
          · simp at h
          · next k hk =>
            have hkl := scanString_length _ _ hk
            simp only [Option.map_eq_some'] at h
            obtain ⟨v, hv, rfl⟩ := h
            refine ⟨by simp only; omega, fun n hn => ?_⟩
            simp only at hn
            cases n with
            | zero => omega
            | succ n =>
              rw [parseValue, hs]
              simp only [h1, h3, h5, hk, hv, if_true, if_false]
              rfl
        · -- a number
          simp only [Option.map_eq_some'] at h
          obtain ⟨q, hq, rfl⟩ := h
          have hql := scanNumber_length _ _ hq
          simp only [List.length_cons] at hql
          refine ⟨by simp only; omega, fun n hn => ?_⟩
          simp only at hn
          cases n with
          | zero => omega
          | succ n =>
            rw [parseValue, hs]
            simp only [h1, h3, h5, h6, hq, if_true, if_false]
            rfl
        · -- true
          simp only [Option.some.injEq] at h
          subst h
          refine ⟨by simp only [List.length_drop]; omega, fun n hn => ?_⟩
          simp only [List.length_drop] at hn
          cases n with
          | zero => omega
          | succ n => rw [parseValue, hs]; simp only [h1, h3, h5, h6, h7, if_true, if_false]
        · -- false
          simp only [Option.some.injEq] at h
          subst h
          refine ⟨by simp only [List.length_drop]; omega, fun n hn => ?_⟩
          simp only [List.length_drop] at hn
          cases n with
          | zero => omega
          | succ n => rw [parseValue, hs]; simp only [h1, h3, h5, h6, h7, h8, if_true, if_false]; simp
        · -- null
          simp only [Option.some.injEq] at h
          subst h
          refine ⟨by simp only [List.length_drop]; omega, fun n hn => ?_⟩
          simp only [List.length_drop] at hn
          cases n with
          | zero => omega
          | succ n =>
            rw [parseValue, hs]; simp only [h1, h3, h5, h6, h7, h8, h9, if_true, if_false]; simp
    · intro d s r h
      rw [parseElems] at h
      split at h
      · simp at h
      · next rv hv =>
        obtain ⟨hvl, hvb⟩ := ihV _ _ _ hv
        have hsp := skipSpace_length_le rv.2
        split at h
        · simp at h
        · next c t hs =>
          rw [hs] at hsp
          simp only [List.length_cons] at hsp
          split_ifs at h with h1 h2
          · simp only [Option.map_eq_some'] at h
            obtain ⟨q, hq, rfl⟩ := h
            obtain ⟨hl, hb⟩ := ihE _ _ _ hq
            refine ⟨by simp only; omega, fun n hn => ?_⟩
            simp only at hn
            cases n with
            | zero => omega
            | succ n =>
              rw [parseElems, hvb n (by omega)]
              simp only [hs, h1, if_true]
              rw [hb n (by omega)]
              rfl
          · simp only [Option.some.injEq] at h
            subst h
            refine ⟨by simp only; omega, fun n hn => ?_⟩
            simp only at hn
            cases n with
            | zero => omega
            | succ n =>
              rw [parseElems, hvb n (by omega)]
              simp only [hs, h1, h2, if_true, if_false]; simp
    · intro d s r h
      rw [parseMembers] at h
      have hsp := skipSpace_length_le s
      split at h
      · simp at h
      · next c t hs =>
        rw [hs] at hsp
        simp only [List.length_cons] at hsp
        split_ifs at h with h1
        split at h
        · simp at h
        · next k hk =>
          have hkl := scanString_length _ _ hk
          have hsp2 := skipSpace_length_le k.2
          split at h
          · next key c2 t2 hkey hs2 =>
            rw [hs2] at hsp2
            simp only [List.length_cons] at hsp2
            split_ifs at h with h2
            split at h
            · simp at h
            · next rv hv =>
              obtain ⟨hvl, hvb⟩ := ihV _ _ _ hv
              have hsp3 := skipSpace_length_le rv.2
              split at h
              · simp at h
              · next c3 t3 hs3 =>
                rw [hs3] at hsp3
                simp only [List.length_cons] at hsp3
                split_ifs at h with h3 h4
                · simp only [Option.map_eq_some'] at h
                  obtain ⟨q, hq, rfl⟩ := h
                  obtain ⟨hl, hb⟩ := ihM _ _ _ hq
                  refine ⟨by simp only; omega, fun n hn => ?_⟩
                  simp only at hn
                  cases n with
                  | zero => omega
                  | succ n =>
                    rw [parseMembers, hs]
                    simp only [h1, hk, hkey, hs2, h2, if_true]
                    rw [hvb n (by omega)]
                    simp only [hs3, h3, if_true]
                    rw [hb n (by omega)]
                    rfl
                · simp only [Option.some.injEq] at h
                  subst h
                  refine ⟨by simp only; omega, fun n hn => ?_⟩
                  simp only at hn
                  cases n with
                  | zero => omega
                  | succ n =>
                    rw [parseMembers, hs]
                    simp only [h1, hk, hkey, hs2, h2, if_true]
                    rw [hvb n (by omega)]
                    simp only [hs3, h3, h4, if_true, if_false]; simp
          · simp at h

/-- Whenever some amount of fuel lets `parseValue` read a value, the fuel that
`parseJSON` provides reads the same value: no input is rejected for lack of
fuel. -/
theorem parseValue_fuel (m d : Nat) (s : Bytes) (r : JSON × Bytes)
    (h : parseValue m d s = some r) : parseValue (2 * s.length + 2) d s = some r :=
  ((parse_fuel_aux m).1 d s r h).2 _ (by omega)

theorem find?_spliceData (F L : Bytes)
    (hpre : HasPrefix L PINNED_CFG = true) (hnl : NL ∉ L) :
    (Split NL (spliceData L F)).find? (fun l => HasPrefix l PINNED_CFG) = some L := by
  cases h : (Split NL F).findIdx? (fun l => HasPrefix l PINNED_CFG) with
  | some i =>
    rw [Split_spliceData_replaced L F i hnl h]
    exact find?_set_findIdx L _ i hpre h
  | none =>
    have h0 : ∀ l ∈ Split NL F, HasPrefix l PINNED_CFG = false := by
      intro l hl
      simpa using (List.findIdx?_eq_none_iff.1 h) l hl
    rw [Split_spliceData_appended L F hnl h0, List.find?_append]
    have : (Split NL F).find? (fun l => HasPrefix l PINNED_CFG) = none := by
      rw [List.find?_eq_none]
      intro x hx
      simp [h0 x hx]
    simp [this, hpre]

/-- When the browser is not running and `os.WriteFile` fails, `Save` returns
the write error and the file is in the state the failed write left it in (for
a file that cannot be opened for writing, its old content). -/
theorem Save_write_fault (P : Pinned) (F : Bytes) (left : Option Bytes) (pid : Nat)
    (procs : List ProcEntry) (hrun : isRunning pid procs = false) :
    Save P ⟨some F, pid, procs, some left⟩
      = (some Error.writeFile, ⟨left, pid, procs, some left⟩) := by
  rw [Save_not_running P F pid procs (some left) hrun, WriteFile_fault]

/-- After a `Save` whose write went through, `Load` hands the line that `Save`
encoded to the JSON decoder, whatever else the file holds. -/
theorem Load_Save (P : Pinned) (F : Bytes) (pid : Nat) (procs : List ProcEntry)
    (hrun : isRunning pid procs = false) :
    Load (Save P ⟨some F, pid, procs, none⟩).2 = Unmarshal (pinnedJSON (cfgLine P)) := by
  rw [Save_not_running P F pid procs none hrun, WriteFile_ok]
  exact loadLoop_find _ _
    (find?_spliceData F (cfgLine P) (HasPrefix_cfgLine P) (NL_not_mem_cfgLine P))

/-! ## The claims -/

/-- C1 (liveness gate). When `prefs.js` exists with content `F` and `isRunning`
reports true, `Save` returns the error "Firefox is running, please close it"
for every pin collection and writes nothing: `os.WriteFile` is not called,
whatever it would have met, and the file still holds `F`. -/
theorem Save_running_gate (F : Bytes) (P : Pinned) (pid : Nat) (procs : List ProcEntry)
    (wf : Option (Option Bytes)) (h : isRunning pid procs = true) :
    Save P ⟨some F, pid, procs, wf⟩
      = (some (Error.errorsNew "Firefox is running, please close it"),
          ⟨some F, pid, procs, wf⟩) := by
  simp [Save, h]

/-- C1 at a concrete input: caller 12, a browser running as process 500. -/
theorem Save_running_gate_witness :
    isRunning 12 [⟨ascii "500", some (ascii "/usr/lib/firefox/firefox")⟩] = true ∧
    Save (some [⟨ascii "https://a.com", [], []⟩])
        ⟨some (ascii "user_pref(\"a\", 1);\n"), 12,
          [⟨ascii "500", some (ascii "/usr/lib/firefox/firefox")⟩], none⟩
      = (some (Error.errorsNew "Firefox is running, please close it"),
          ⟨some (ascii "user_pref(\"a\", 1);\n"), 12,
            [⟨ascii "500", some (ascii "/usr/lib/firefox/firefox")⟩], none⟩) :=
  ⟨by decide, Save_running_gate _ _ _ _ _ (by decide)⟩

/-- C2 (liveness check), evaluated where it fails. The caller has pid 12 and
the only other process, pid 123, runs `/usr/lib/firefox/firefox`. Its entry is
neither the caller's pid nor `self`, and its executable path contains
`firefox`, yet `isRunning` reports false: the path `/proc/123/exe` contains
the text `12` and the entry is skipped. -/
theorem isRunning_skips_pid_superstring :
    ascii "123" ≠ Sprint 12 ∧ ascii "123" ≠ ascii "self" ∧
    Contains (ascii "/usr/lib/firefox/firefox") (ascii "firefox") = true ∧
    isRunning 12 [⟨ascii "123", some (ascii "/usr/lib/firefox/firefox")⟩] = false := by
  decide

/-- C3 (round trip), evaluated where it fails. The one-pin collection with
URL `https://a.com/?x=1&y=2` is written by `Save` with the ampersand as the
JSON escape `\u0026`; `Load` deletes the backslash and returns, without an
error, a pin whose URL is `https://a.com/?x=1u0026y=2`. -/
theorem Load_cfgLine_ampersand :
    cfgLine (some [⟨ascii "https://a.com/?x=1&y=2", [], []⟩])
      = ascii "user_pref(\"browser.newtabpage.pinned\", \"[\x7b\\\"url\\\":\\\"https://a.com/?x=1\\u0026y=2\\\"\x7d]\");" ∧
    Load ⟨some (cfgLine (some [⟨ascii "https://a.com/?x=1&y=2", [], []⟩])), 1, [], none⟩
      = (none, some [⟨ascii "https://a.com/?x=1u0026y=2", [], []⟩]) := by
  decide

/-- C4 (escaping), evaluated where it fails. For the pin with URL `a"b` the
line of `Save` holds the quote as `\\"` (the JSON escape `\"` with only its
quote escaped again); `Load` deletes both backslashes, hands `[{"url":"a"b"}]`
to the JSON decoder and returns its syntax error, the receiver left empty. -/
theorem Load_cfgLine_quote :
    cfgLine (some [⟨ascii "a\"b", [], []⟩])
      = ascii "user_pref(\"browser.newtabpage.pinned\", \"[\x7b\\\"url\\\":\\\"a\\\\\"b\\\"\x7d]\");" ∧
    pinnedJSON (cfgLine (some [⟨ascii "a\"b", [], []⟩])) = ascii "[\x7b\"url\":\"a\"b\"\x7d]" ∧
    Load ⟨some (cfgLine (some [⟨ascii "a\"b", [], []⟩])), 1, [], none⟩
      = (some Error.jsonSyntax, some []) := by
  decide

/-- C5 (non-invasiveness). When the browser is not running and exactly one of
the `N` lines of `F` starts with `PINNED_CFG`, `Save` hands the content
`spliceData (cfgLine P) F` to `os.WriteFile` and returns what that call
returns, so that after a write that goes through `Save` has returned no error
and the file holds this content. The content splits into `N` lines again; the
line at each index is the line of `F` at that index, except that the line
starting with `PINNED_CFG` has become the encoded line `cfgLine P`. -/
theorem Save_single_match_frame (F : Bytes) (P : Pinned) (pid : Nat) (procs : List ProcEntry)
    (wf : Option (Option Bytes)) (hrun : isRunning pid procs = false)
    (hone : (Split NL F).countP (fun l => HasPrefix l PINNED_CFG) = 1) :
    Save P ⟨some F, pid, procs, wf⟩
      = WriteFile ⟨some F, pid, procs, wf⟩ (spliceData (cfgLine P) F) ∧
    Save P ⟨some F, pid, procs, none⟩
      = (none, ⟨some (spliceData (cfgLine P) F), pid, procs, none⟩) ∧
    (Split NL (spliceData (cfgLine P) F)).length = (Split NL F).length ∧
    ∀ (i : Nat) (l : Bytes), (Split NL F)[i]? = some l →
      (Split NL (spliceData (cfgLine P) F))[i]?
        = some (if HasPrefix l PINNED_CFG then cfgLine P else l) := by
  have hmap : Split NL (spliceData (cfgLine P) F)
      = (Split NL F).map (fun l => if HasPrefix l PINNED_CFG then cfgLine P else l) := by
    have hflag : (replaceLoop (cfgLine P) (Split NL F)).2 = true := by
      rw [replaceLoop_flag, List.any_eq_true]
      have : 0 < (Split NL F).countP (fun l => HasPrefix l PINNED_CFG) := by omega
      obtain ⟨x, hx, hp⟩ := List.countP_pos_iff.1 this
      exact ⟨x, hx, hp⟩
    unfold spliceData spliceLines
    rw [hflag]
    simp only [Bool.not_true, Bool.false_eq_true, if_false]
    rw [replaceLoop_map _ _ (by rw [← List.countP_eq_length_filter]; omega)]
    apply Split_Join
    · simpa using Split_ne_nil NL F
    · intro x hx
      obtain ⟨l, hl, rfl⟩ := List.mem_map.1 hx
      split
      · exact NL_not_mem_cfgLine P
      · exact not_mem_of_mem_Split NL F l hl
  refine ⟨Save_not_running P F pid procs wf hrun, ?_, ?_, ?_⟩
  · rw [Save_not_running P F pid procs none hrun, WriteFile_ok]
  · rw [hmap, List.length_map]
  · intro i l hi
    rw [hmap, List.getElem?_map, hi]
    rfl

/-- C5 at a concrete input: three lines, the middle one the pinned-sites
statement, and a `prefs.js` that cannot be opened for writing. -/
theorem Save_single_match_frame_witness :
    (isRunning 12 [] = false ∧
      (Split NL (ascii "a\nuser_pref(\"browser.newtabpage.pinned\", \"[]\");\nb")).countP
        (fun l => HasPrefix l PINNED_CFG) = 1) ∧
    (Save (some [⟨ascii "x", [], []⟩])
        ⟨some (ascii "a\nuser_pref(\"browser.newtabpage.pinned\", \"[]\");\nb"), 12, [],
          some (some (ascii "a\nuser_pref(\"browser.newtabpage.pinned\", \"[]\");\nb"))⟩
      = WriteFile
        ⟨some (ascii "a\nuser_pref(\"browser.newtabpage.pinned\", \"[]\");\nb"), 12, [],
          some (some (ascii "a\nuser_pref(\"browser.newtabpage.pinned\", \"[]\");\nb"))⟩
        (spliceData (cfgLine (some [⟨ascii "x", [], []⟩]))
          (ascii "a\nuser_pref(\"browser.newtabpage.pinned\", \"[]\");\nb")) ∧
    Save (some [⟨ascii "x", [], []⟩])
        ⟨some (ascii "a\nuser_pref(\"browser.newtabpage.pinned\", \"[]\");\nb"), 12, [], none⟩
      = (none, ⟨some (spliceData (cfgLine (some [⟨ascii "x", [], []⟩]))
          (ascii "a\nuser_pref(\"browser.newtabpage.pinned\", \"[]\");\nb")), 12, [], none⟩) ∧
    (Split NL (spliceData (cfgLine (some [⟨ascii "x", [], []⟩]))
        (ascii "a\nuser_pref(\"browser.newtabpage.pinned\", \"[]\");\nb"))).length
      = (Split NL (ascii "a\nuser_pref(\"browser.newtabpage.pinned\", \"[]\");\nb")).length ∧
    ∀ (i : Nat) (l : Bytes), (Split NL (ascii "a\nuser_pref(\"browser.newtabpage.pinned\", \"[]\");\nb"))[i]?
        = some l →
      (Split NL (spliceData (cfgLine (some [⟨ascii "x", [], []⟩]))
        (ascii "a\nuser_pref(\"browser.newtabpage.pinned\", \"[]\");\nb")))[i]?
        = some (if HasPrefix l PINNED_CFG then cfgLine (some [⟨ascii "x", [], []⟩]) else l)) :=
  ⟨⟨by decide, by decide⟩, Save_single_match_frame _ _ _ _ _ (by decide) (by decide)⟩

/-- C6 (append when absent). When the browser is not running and no line of
`F` starts with `PINNED_CFG`, the content `Save` hands to `os.WriteFile` is
exactly `F`, a newline, and the encoded line `cfgLine P`, and `Save` returns
what that call returns, so that after a write that goes through `Save` has
returned no error and the file holds this content; split into lines, it is
the lines of `F` in order followed by `cfgLine P` as the last line. -/
theorem Save_appends_when_absent (F : Bytes) (P : Pinned) (pid : Nat) (procs : List ProcEntry)
    (wf : Option (Option Bytes)) (hrun : isRunning pid procs = false)
    (hnone : (Split NL F).countP (fun l => HasPrefix l PINNED_CFG) = 0) :
    Save P ⟨some F, pid, procs, wf⟩
      = WriteFile ⟨some F, pid, procs, wf⟩ (F ++ [NL] ++ cfgLine P) ∧
    Save P ⟨some F, pid, procs, none⟩
      = (none, ⟨some (F ++ [NL] ++ cfgLine P), pid, procs, none⟩) ∧
    Split NL (F ++ [NL] ++ cfgLine P) = Split NL F ++ [cfgLine P] := by
  have h : ∀ l ∈ Split NL F, HasPrefix l PINNED_CFG = false := by
    intro l hl
    have := List.countP_eq_zero.1 hnone l hl
    simpa using this
  have e := spliceData_appended (cfgLine P) F h
  refine ⟨?_, ?_, ?_⟩
  · rw [Save_not_running P F pid procs wf hrun, e]
  · rw [Save_not_running P F pid procs none hrun, WriteFile_ok, e]
  · rw [← e]
    exact Split_spliceData_appended _ _ (NL_not_mem_cfgLine P) h

/-- C6 at a concrete input: two lines, neither a pinned-sites statement, and
a `prefs.js` that cannot be opened for writing. -/
theorem Save_appends_when_absent_witness :
    (isRunning 12 [] = false ∧
      (Split NL (ascii "user_pref(\"a\", 1);\nuser_pref(\"b\", 2);")).countP
        (fun l => HasPrefix l PINNED_CFG) = 0) ∧
    (Save (some [⟨ascii "x", [], []⟩])
        ⟨some (ascii "user_pref(\"a\", 1);\nuser_pref(\"b\", 2);"), 12, [],
          some (some (ascii "user_pref(\"a\", 1);\nuser_pref(\"b\", 2);"))⟩
      = WriteFile
        ⟨some (ascii "user_pref(\"a\", 1);\nuser_pref(\"b\", 2);"), 12, [],
          some (some (ascii "user_pref(\"a\", 1);\nuser_pref(\"b\", 2);"))⟩
        (ascii "user_pref(\"a\", 1);\nuser_pref(\"b\", 2);" ++ [NL]
          ++ cfgLine (some [⟨ascii "x", [], []⟩])) ∧
    Save (some [⟨ascii "x", [], []⟩])
        ⟨some (ascii "user_pref(\"a\", 1);\nuser_pref(\"b\", 2);"), 12, [], none⟩
      = (none, ⟨some (ascii "user_pref(\"a\", 1);\nuser_pref(\"b\", 2);" ++ [NL]
          ++ cfgLine (some [⟨ascii "x", [], []⟩])), 12, [], none⟩) ∧
    Split NL (ascii "user_pref(\"a\", 1);\nuser_pref(\"b\", 2);" ++ [NL]
        ++ cfgLine (some [⟨ascii "x", [], []⟩]))
      = Split NL (ascii "user_pref(\"a\", 1);\nuser_pref(\"b\", 2);")
          ++ [cfgLine (some [⟨ascii "x", [], []⟩])]) :=
  ⟨⟨by decide, by decide⟩, Save_appends_when_absent _ _ _ _ _ (by decide) (by decide)⟩

/-- C7 (worked example). The pins `[{url: "https://a.com", label: "A"},
{url: "https://b.com"}]` are encoded by `Save` as the line
`user_pref("browser.newtabpage.pinned", "[{\"url\":\"https://a.com\",\"label\":\"A\"},{\"url\":\"https://b.com\"}]");`
with no `label` or `customScreenshotURL` key for the unset fields, and `Load`
of a file holding that line returns the two pins, the second with no label. -/
theorem worked_example :
    cfgLine (some [⟨ascii "https://a.com", ascii "A", []⟩, ⟨ascii "https://b.com", [], []⟩])
      = ascii "user_pref(\"browser.newtabpage.pinned\", \"[\x7b\\\"url\\\":\\\"https://a.com\\\",\\\"label\\\":\\\"A\\\"\x7d,\x7b\\\"url\\\":\\\"https://b.com\\\"\x7d]\");" ∧
    Load ⟨some (ascii "user_pref(\"browser.newtabpage.pinned\", \"[\x7b\\\"url\\\":\\\"https://a.com\\\",\\\"label\\\":\\\"A\\\"\x7d,\x7b\\\"url\\\":\\\"https://b.com\\\"\x7d]\");"), 1, [], none⟩
      = (none, some [⟨ascii "https://a.com", ascii "A", []⟩, ⟨ascii "https://b.com", [], []⟩]) := by
  decide

/-- C8 (missing target). For a readable `prefs.js` with content `F`, `Load`
returns the error "No pinned sites found" exactly when no line of `F` starts
with `PINNED_CFG`; in that case the error is therefore not one of the JSON
decoder. -/
theorem Load_not_found_iff (F : Bytes) (pid : Nat) (procs : List ProcEntry)
    (wf : Option (Option Bytes)) :
    (Load ⟨some F, pid, procs, wf⟩).1 = some (Error.errorsNew "No pinned sites found")
      ↔ (Split NL F).countP (fun l => HasPrefix l PINNED_CFG) = 0 := by
  simp only [Load]
  constructor
  · intro h
    by_contra hc
    have hpos : 0 < (Split NL F).countP (fun l => HasPrefix l PINNED_CFG) := by omega
    obtain ⟨x, hx, hp⟩ := List.countP_pos_iff.1 hpos
    cases hf : (Split NL F).find? (fun l => HasPrefix l PINNED_CFG) with
    | none =>
      rw [List.find?_eq_none] at hf
      exact hf x hx hp
    | some L =>
      rw [loadLoop_find _ L hf] at h
      rcases Unmarshal_error (pinnedJSON L) with e | e | e <;> rw [e] at h <;> cases h
  · intro h
    rw [loadLoop_none]
    intro l hl
    simpa using List.countP_eq_zero.1 h l hl

/-- C9 (first match). When the browser is not running and `i` is the index of
the first line of `F` that starts with `PINNED_CFG`, `Save` hands the content
`spliceData (cfgLine P) F` to `os.WriteFile` and returns what that call
returns, so that after a write that goes through `Save` has returned no error
and the file holds this content. Its lines are the lines of `F` with the line
at index `i` replaced by `cfgLine P`: the line count is unchanged and every
other line, later ones that start with `PINNED_CFG` included, keeps its
content and position. -/
theorem Save_first_match_only (F : Bytes) (P : Pinned) (pid : Nat) (procs : List ProcEntry)
    (wf : Option (Option Bytes)) (i : Nat) (hrun : isRunning pid procs = false)
    (hi : (Split NL F).findIdx? (fun l => HasPrefix l PINNED_CFG) = some i) :
    Save P ⟨some F, pid, procs, wf⟩
      = WriteFile ⟨some F, pid, procs, wf⟩ (spliceData (cfgLine P) F) ∧
    Save P ⟨some F, pid, procs, none⟩
      = (none, ⟨some (spliceData (cfgLine P) F), pid, procs, none⟩) ∧
    Split NL (spliceData (cfgLine P) F) = (Split NL F).set i (cfgLine P) ∧
    (Split NL (spliceData (cfgLine P) F)).length = (Split NL F).length ∧
    (Split NL (spliceData (cfgLine P) F))[i]? = some (cfgLine P) ∧
    ∀ j, j ≠ i → (Split NL (spliceData (cfgLine P) F))[j]? = (Split NL F)[j]? := by
  have hset := Split_spliceData_replaced (cfgLine P) F i (NL_not_mem_cfgLine P) hi
  have hlt : i < (Split NL F).length := by
    rw [List.findIdx?_eq_some_iff_getElem] at hi
    exact hi.1
  refine ⟨Save_not_running P F pid procs wf hrun, ?_, hset, ?_, ?_, ?_⟩
  · rw [Save_not_running P F pid procs none hrun, WriteFile_ok]
  · rw [hset, List.length_set]
  · rw [hset, List.getElem?_set_self hlt]
  · intro j hj
    rw [hset, List.getElem?_set_ne (Ne.symm hj)]

/-- C9 at a concrete input: four lines, the second and the fourth start with
`PINNED_CFG`; only the second is replaced. -/
theorem Save_first_match_only_witness :
    (isRunning 12 [] = false ∧
      (Split NL (ascii "a\nuser_pref(\"browser.newtabpage.pinned\", \"[]\");\nb\nuser_pref(\"browser.newtabpage.pinned\", \"null\");")).findIdx?
        (fun l => HasPrefix l PINNED_CFG) = some 1) ∧
    Split NL (spliceData (cfgLine (some [⟨ascii "x", [], []⟩]))
        (ascii "a\nuser_pref(\"browser.newtabpage.pinned\", \"[]\");\nb\nuser_pref(\"browser.newtabpage.pinned\", \"null\");"))
      = [ascii "a", cfgLine (some [⟨ascii "x", [], []⟩]), ascii "b",
          ascii "user_pref(\"browser.newtabpage.pinned\", \"null\");"] :=
  ⟨⟨by decide, by decide⟩,
    (Save_first_match_only
      (ascii "a\nuser_pref(\"browser.newtabpage.pinned\", \"[]\");\nb\nuser_pref(\"browser.newtabpage.pinned\", \"null\");")
      (some [⟨ascii "x", [], []⟩]) 12 [] none 1 (by decide) (by decide)).2.2.1.trans
      (by decide)⟩

/-- C10 (save then load). For every content `F` and every line `L` that starts
with `PINNED_CFG` and holds no newline, the first line starting with
`PINNED_CFG` in the content `Save` builds from `F` and `L` is `L` itself,
whether `L` replaced a line or was appended; the loop of `Load` over that
content therefore decodes `L`. -/
theorem spliceData_first_match (F L : Bytes)
    (hpre : HasPrefix L PINNED_CFG = true) (hnl : NL ∉ L) :
    (Split NL (spliceData L F)).find? (fun l => HasPrefix l PINNED_CFG) = some L ∧
    loadLoop (Split NL (spliceData L F)) = Unmarshal (pinnedJSON L) := by
  have key := find?_spliceData F L hpre hnl
  exact ⟨key, loadLoop_find _ L key⟩

/-- C10 at a concrete input: a stale pinned-sites line is replaced, a second
one further down stays behind, and the first match is the new line. -/
theorem spliceData_first_match_witness :
    (HasPrefix (ascii "user_pref(\"browser.newtabpage.pinned\", \"[]\");") PINNED_CFG = true ∧
      NL ∉ ascii "user_pref(\"browser.newtabpage.pinned\", \"[]\");") ∧
    ((Split NL (spliceData (ascii "user_pref(\"browser.newtabpage.pinned\", \"[]\");")
        (ascii "a\nuser_pref(\"browser.newtabpage.pinned\", \"null\");\nuser_pref(\"browser.newtabpage.pinned\", \"x\");"))).find?
        (fun l => HasPrefix l PINNED_CFG)
      = some (ascii "user_pref(\"browser.newtabpage.pinned\", \"[]\");") ∧
    loadLoop (Split NL (spliceData (ascii "user_pref(\"browser.newtabpage.pinned\", \"[]\");")
        (ascii "a\nuser_pref(\"browser.newtabpage.pinned\", \"null\");\nuser_pref(\"browser.newtabpage.pinned\", \"x\");")))
      = Unmarshal (pinnedJSON (ascii "user_pref(\"browser.newtabpage.pinned\", \"[]\");"))) :=
  ⟨⟨by decide, by decide⟩, spliceData_first_match _ _ (by decide) (by decide)⟩

end Customizer
